import Mathlib

/-!
Shallow embedding of the context-compression repository: the KV-cache
eviction policies of `prompt_compression.py` and the cache sizing and
generation-driver logic of `generation_utils.py`, together with proofs of
the specification's claims about them.

Conventions used throughout:
* machine integers and Python ints are `ℕ`/`ℤ`, Python floats are `ℚ`
  (exact arithmetic; all claims here are order/selection properties that do
  not depend on rounding of the float representation);
* a Python `assert` (or an operation that raises) is modelled by an
  `Option` result, `none` meaning the call raises;
* tensors are lists (one entry per position along the indexed dimension);
  an operation that acts uniformly across the batch/head dimensions is
  embedded on a single head slice.
-/

namespace ContextCompression

/-- Python `range(a, b)` over integers, as a list (empty when `b ≤ a`). -/
def pyRange (a b : ℤ) : List ℤ :=
  (List.range (b - a).toNat).map (fun i : ℕ => a + (i : ℤ))

/-- Index a list by a Python-style integer index: negative indices count
from the end of the list; `d` is returned for out-of-range accesses. -/
def pyIndex (xs : List α) (d : α) (i : ℤ) : α :=
  if i < 0 then xs.getD ((xs.length : ℤ) + i).toNat d else xs.getD i.toNat d

/-- The keep-index tensor built by `PromptCompressorRecentGlobal.__call__`
(`prompt_compression.py` lines 42-52):
`list(range(global_tokens)) + list(range(n - max_cache_length + global_tokens, n))`
where `n = input_pos.shape[0]`. -/
def recentGlobalKeep (globalTokens maxCacheLength n : ℕ) : List ℤ :=
  pyRange 0 globalTokens ++
    pyRange ((n : ℤ) - (maxCacheLength : ℤ) + (globalTokens : ℤ)) (n : ℤ)

/-- `PromptCompressorRecentGlobal.__call__` (`prompt_compression.py` lines
38-56): builds the keep indices, asserts
`len(keep_idxs) == self.max_cache_length` (`none` models the assert
firing), and gathers the key/value buffers at the kept indices.  The gather
`k_val[:, :, keep_idxs]` acts on the sequence dimension uniformly across
the leading batch/head dimensions, so a single head slice is embedded.  At
the call site the key/value sequence dimension has size
`n = input_pos.shape[0]`, and torch's fancy indexing raises `IndexError`
for any index outside `[-n, n-1]`: the bounds guard models that error path
(`none`); in-range negative indices wrap from the end (`pyIndex`). -/
def recentGlobalCall (globalTokens maxCacheLength n : ℕ)
    (kVal vVal : List (List ℚ)) :
    Option (List ℤ × List (List ℚ) × List (List ℚ)) :=
  if (recentGlobalKeep globalTokens maxCacheLength n).length = maxCacheLength then
    if (recentGlobalKeep globalTokens maxCacheLength n).all
        (fun i => decide (-(n : ℤ) ≤ i ∧ i < (n : ℤ))) then
      some (recentGlobalKeep globalTokens maxCacheLength n,
            (recentGlobalKeep globalTokens maxCacheLength n).map (pyIndex kVal []),
            (recentGlobalKeep globalTokens maxCacheLength n).map (pyIndex vVal []))
    else none
  else none

lemma pyRange_length (a b : ℤ) : (pyRange a b).length = (b - a).toNat := by
  simp [pyRange]

lemma mem_pyRange {a b i : ℤ} : i ∈ pyRange a b ↔ a ≤ i ∧ i < b := by
  simp only [pyRange, List.mem_map, List.mem_range]
  constructor
  · rintro ⟨j, hj, rfl⟩
    omega
  · rintro ⟨h1, h2⟩
    exact ⟨(i - a).toNat, by omega, by omega⟩

lemma pyRange_sorted (a b : ℤ) : (pyRange a b).Sorted (· < ·) := by
  unfold pyRange
  refine List.Pairwise.map _ (fun i j hij => ?_) (List.sorted_lt_range _)
  omega

lemma recentGlobalKeep_length {g c : ℕ} (n : ℕ) (hgc : g ≤ c) :
    (recentGlobalKeep g c n).length = c := by
  simp only [recentGlobalKeep, List.length_append, pyRange_length]
  omega

lemma recentGlobalKeep_bounds {g c n : ℕ} (hgc : g ≤ c) (hcn : c ≤ n) :
    (recentGlobalKeep g c n).all
      (fun i => decide (-(n : ℤ) ≤ i ∧ i < (n : ℤ))) = true := by
  rw [List.all_eq_true]
  intro i hi
  simp only [decide_eq_true_eq]
  simp only [recentGlobalKeep, List.mem_append, mem_pyRange] at hi
  omega

/-- Claim C1: for `g ≤ c ≤ n`, the RecentGlobal policy returns exactly the
keep indices `{0..g-1} ∪ {n-c+g..n-1}` in ascending order, with exactly `c`
elements, and the key/value buffers gathered at those indices. -/
theorem recentGlobal_correct (g c n : ℕ) (kVal vVal : List (List ℚ))
    (hgc : g ≤ c) (hcn : c ≤ n) :
    recentGlobalCall g c n kVal vVal =
      some (recentGlobalKeep g c n,
            (recentGlobalKeep g c n).map (pyIndex kVal []),
            (recentGlobalKeep g c n).map (pyIndex vVal []))
    ∧ (recentGlobalKeep g c n).length = c
    ∧ (recentGlobalKeep g c n).Sorted (· < ·)
    ∧ (∀ i : ℤ, i ∈ recentGlobalKeep g c n ↔
        (0 ≤ i ∧ i < (g : ℤ)) ∨
          ((n : ℤ) - (c : ℤ) + (g : ℤ) ≤ i ∧ i < (n : ℤ))) := by
  have hlen := recentGlobalKeep_length (g := g) (c := c) n hgc
  refine ⟨by rw [recentGlobalCall, if_pos hlen,
    if_pos (recentGlobalKeep_bounds hgc hcn)], hlen, ?_, ?_⟩
  · unfold recentGlobalKeep
    rw [List.Sorted, List.pairwise_append]
    refine ⟨pyRange_sorted _ _, pyRange_sorted _ _, ?_⟩
    intro x hx y hy
    rw [mem_pyRange] at hx hy
    omega
  · intro i
    simp only [recentGlobalKeep, List.mem_append, mem_pyRange]
    try omega

theorem recentGlobal_correct_witness :
    ((4 : ℕ) ≤ 16 ∧ (16 : ℕ) ≤ 32) ∧
      (recentGlobalCall 4 16 32 [] [] =
        some (recentGlobalKeep 4 16 32,
              (recentGlobalKeep 4 16 32).map (pyIndex ([] : List (List ℚ)) []),
              (recentGlobalKeep 4 16 32).map (pyIndex ([] : List (List ℚ)) []))
      ∧ (recentGlobalKeep 4 16 32).length = 16
      ∧ (recentGlobalKeep 4 16 32).Sorted (· < ·)
      ∧ (∀ i : ℤ, i ∈ recentGlobalKeep 4 16 32 ↔
          (0 ≤ i ∧ i < ((4 : ℕ) : ℤ)) ∨
            (((32 : ℕ) : ℤ) - ((16 : ℕ) : ℤ) + ((4 : ℕ) : ℤ) ≤ i ∧
              i < ((32 : ℕ) : ℤ)))) :=
  ⟨⟨by norm_num, by norm_num⟩,
    recentGlobal_correct 4 16 32 [] [] (by norm_num) (by norm_num)⟩

/-- Claim C9 (counterexample): invoked on a span of length 32 with capacity
16 — a span length different from the capacity — the RecentGlobal call
succeeds instead of raising, refuting the claim that it fails whenever the
span length is not exactly the capacity. -/
theorem recentGlobal_no_span_length_check :
    (recentGlobalCall 4 16 32 [] []).isSome = true := by decide

/-- Claim C9 (amended): the RecentGlobal policy does not check the span
length against the capacity.  Its assertion only checks that the keep list
has exactly `max_cache_length` entries, which holds for every span length
whenever `global_tokens ≤ max_cache_length`, and the call succeeds for
every span at least as long as the capacity — in particular for spans
strictly longer than the capacity, such as span 32 with capacity 16.  The
call can still raise, but only on spans too short for the computed keep
indices, through the gather's index-range check rather than any span-length
check: e.g. span 2 with `global_tokens = 4`, capacity 16 raises
(keep index 3 is out of bounds for a size-2 sequence dimension). -/
theorem recentGlobal_fails_only_on_short_spans :
    (∀ (g c n : ℕ) (kVal vVal : List (List ℚ)), g ≤ c → c ≤ n →
      (recentGlobalCall g c n kVal vVal).isSome = true)
    ∧ recentGlobalCall 4 16 2 [] [] = none := by
  constructor
  · intro g c n kVal vVal hgc hcn
    rw [recentGlobalCall, if_pos (recentGlobalKeep_length n hgc),
      if_pos (recentGlobalKeep_bounds hgc hcn)]
    rfl
  · decide

theorem recentGlobal_fails_only_on_short_spans_witness :
    (recentGlobalCall 4 16 20 [] []).isSome = true :=
  recentGlobal_fails_only_on_short_spans.1 4 16 20 [] []
    (by norm_num) (by norm_num)

/-- Python's built-in `round` (round-half-to-even) on an exact rational. -/
def pyRound (q : ℚ) : ℤ :=
  if q - ⌊q⌋ < 1 / 2 then ⌊q⌋
  else if 1 / 2 < q - ⌊q⌋ then ⌊q⌋ + 1
  else if ⌊q⌋ % 2 = 0 then ⌊q⌋ else ⌊q⌋ + 1

/-- Modelled from the spec: `find_multiple` is imported from the
repository's `model.py`, which is not among the sources here.  The spec
describes it as rounding its argument up to the next multiple of the
second argument ("Round the result up to the next multiple of
`multipleOf`"). -/
def find_multiple (n k : ℤ) : ℤ :=
  if n % k = 0 then n else n + (k - n % k)

/-- `normalize_cache_length` (`generation_utils.py` lines 169-185).
A fractional spec in `(0, 1]` is scaled by `max_seq_length` and rounded; an
absolute spec must be integral (the `assert int(...) == ...` is modelled by
`none`) and is clamped down to `max_seq_length` with a warning; the result
is rounded up to a multiple of `multiple_of` and clamped again. -/
def normalize_cache_length (spec : ℚ) (maxSeq : ℕ) (multipleOf : ℤ) :
    Option ℤ :=
  if 0 < spec ∧ spec ≤ 1 then
    some (min (find_multiple (pyRound (spec * (maxSeq : ℚ))) multipleOf)
      (maxSeq : ℤ))
  else if spec.den = 1 then
    some (min (find_multiple (min spec.num (maxSeq : ℤ)) multipleOf)
      (maxSeq : ℤ))
  else none

lemma dvd_find_multiple (n k : ℤ) : k ∣ find_multiple n k := by
  unfold find_multiple
  split
  · exact Int.dvd_of_emod_eq_zero (by assumption)
  · have h2 := Int.ediv_add_emod n k
    exact ⟨n / k + 1, by rw [mul_add, mul_one]; omega⟩

/-- Claim C4: for every fractional spec `0 < f ≤ 1`, `normalize_cache_length`
returns `round(f * maxSeq)` rounded up to the next multiple of 8 and clamped
to `maxSeq`; hence the result is at most `maxSeq` and divisible by 8 unless
the clamp made it equal to `maxSeq`. -/
theorem normalize_cache_length_fractional (f : ℚ) (maxSeq : ℕ)
    (h0 : 0 < f) (h1 : f ≤ 1) :
    normalize_cache_length f maxSeq 8 =
      some (min (find_multiple (pyRound (f * (maxSeq : ℚ))) 8) (maxSeq : ℤ))
    ∧ ∀ r, normalize_cache_length f maxSeq 8 = some r →
        r ≤ (maxSeq : ℤ) ∧ ((8 : ℤ) ∣ r ∨ r = (maxSeq : ℤ)) := by
  have heq : normalize_cache_length f maxSeq 8 =
      some (min (find_multiple (pyRound (f * (maxSeq : ℚ))) 8) (maxSeq : ℤ)) := by
    rw [normalize_cache_length, if_pos ⟨h0, h1⟩]
  refine ⟨heq, fun r hr => ?_⟩
  rw [heq, Option.some_inj] at hr
  subst hr
  refine ⟨min_le_right _ _, ?_⟩
  rcases le_total (find_multiple (pyRound (f * (maxSeq : ℚ))) 8) (maxSeq : ℤ)
    with h | h
  · exact Or.inl (by rw [min_eq_left h]; exact dvd_find_multiple _ _)
  · exact Or.inr (min_eq_right h)

theorem normalize_cache_length_fractional_witness :
    ((0 : ℚ) < 33 / 100 ∧ (33 / 100 : ℚ) ≤ 1) ∧
      normalize_cache_length (33 / 100) 100 8 = some 40 := by
  have h := normalize_cache_length_fractional (33 / 100) 100
    (by norm_num) (by norm_num)
  refine ⟨⟨by norm_num, by norm_num⟩, ?_⟩
  rw [h.1]
  norm_num [pyRound, find_multiple]

/-- The `max_cache_length` normalization and per-layer expansion portion of
`setup_caches` (`generation_utils.py` lines 196-209): normalize every
group's length, require the layer count to be a multiple of the group count
(the `assert`, and Python's `ZeroDivisionError` for an empty group list,
are modelled by `none`), and repeat each group's value
`n_layer // len(groups)` times contiguously
(`[item for item in ... for _ in range(tile_size)]`). -/
def setup_cache_lengths (groups : List ℚ) (nLayer maxSeq : ℕ) :
    Option (List ℤ) :=
  (groups.mapM (fun l => normalize_cache_length l maxSeq 8)).bind (fun norm =>
    if 0 < groups.length ∧ nLayer % groups.length = 0 then
      some (norm.flatMap (fun item =>
        List.replicate (nLayer / groups.length) item))
    else none)

/-- Claim C5: `setup_caches` expands group capacities to per-layer
capacities by contiguous block repetition (each group's normalized value
repeated `layerCount / len(groups)` times consecutively, group order
preserved), fails when the layer count is not divisible by the group count,
and for groups `[64, 128]` over 8 layers yields
`[64, 64, 64, 64, 128, 128, 128, 128]`. -/
theorem setup_caches_block_expansion :
    (∀ (groups : List ℚ) (nLayer maxSeq : ℕ),
        ¬ groups.length ∣ nLayer →
        setup_cache_lengths groups nLayer maxSeq = none)
    ∧ (∀ (groups : List ℚ) (nLayer maxSeq : ℕ) (norm : List ℤ),
        0 < groups.length → groups.length ∣ nLayer →
        groups.mapM (fun l => normalize_cache_length l maxSeq 8) = some norm →
        setup_cache_lengths groups nLayer maxSeq =
          some (norm.flatMap (fun item =>
            List.replicate (nLayer / groups.length) item)))
    ∧ setup_cache_lengths [64, 128] 8 512 =
        some [64, 64, 64, 64, 128, 128, 128, 128] := by
  refine ⟨?_, ?_, by decide⟩
  · intro groups nLayer maxSeq hdvd
    unfold setup_cache_lengths
    cases hm : groups.mapM (fun l => normalize_cache_length l maxSeq 8) with
    | none => rfl
    | some norm =>
      rw [Option.some_bind, if_neg]
      rintro ⟨-, hmod⟩
      exact hdvd (Nat.dvd_of_mod_eq_zero hmod)
  · intro groups nLayer maxSeq norm hpos hdvd hm
    unfold setup_cache_lengths
    rw [hm, Option.some_bind,
      if_pos ⟨hpos, Nat.dvd_iff_mod_eq_zero.mp hdvd⟩]

theorem setup_caches_block_expansion_witness :
    setup_cache_lengths [64, 128] 9 512 = none :=
  setup_caches_block_expansion.1 [64, 128] 9 512 (by decide)

/-- The long-prompt / exact-capacity splitting prologue of `generate`
(`generation_utils.py` lines 259-272): with
`max_prompt_len = min_cache_length - 1`, the prompt is split into a
truncated prompt plus a teacher-forcing tail exactly when the caller opted
into long-prompt feeding and the prompt exceeds `max_prompt_len`, or the
prompt length equals `min_cache_length`; on a split, `max_new_tokens` is
increased by the tail's length.  Returns
(possibly truncated prompt, optional tail, adjusted `max_new_tokens`). -/
def splitPrompt (feedLong : Bool) (minCache : ℕ) (prompt : List ℤ)
    (maxNew : ℕ) : List ℤ × Option (List ℤ) × ℕ :=
  if (feedLong = true ∧ minCache - 1 < prompt.length) ∨
      prompt.length = minCache then
    (prompt.take (minCache - 1), some (prompt.drop (minCache - 1)),
     maxNew + (prompt.drop (minCache - 1)).length)
  else (prompt, none, maxNew)

/-- The loop body of `decode_n_tokens` (`generation_utils.py` lines
143-161), fuel-indexed on the remaining iteration count.  The opaque model
forward pass (`decode_one_token`, a greedy argmax over the model's logits)
is abstracted as an oracle `emit` giving the token produced at loop index
`i` when the step is not teacher-forced.  A step is teacher-forced when a
tail `pfx` is present and `i < len(pfx)`; the produced token is appended,
and the loop breaks after appending when the token is in the non-empty
terminator list and the step was not teacher-forced. -/
def decodeGo (emit : ℕ → ℤ) (terms : List ℤ) (pfx : Option (List ℤ)) :
    ℕ → ℕ → List ℤ
  | _, 0 => []
  | i, fuel + 1 =>
    if (pfx.elim false (fun p => decide (i < p.length))) = true then
      (pfx.getD []).getD i 0 ::
        decodeGo emit terms pfx (i + 1) fuel
    else if terms ≠ [] ∧ emit i ∈ terms then [emit i]
    else emit i :: decodeGo emit terms pfx (i + 1) fuel

/-- `decode_n_tokens` (`generation_utils.py` lines 133-162): returns the
list of tokens produced by `num_new_tokens` decode steps, stopping early on
a non-teacher-forced terminator (which is still appended). -/
def decode_n_tokens (emit : ℕ → ℤ) (numNew : ℕ) (terms : List ℤ)
    (pfx : Option (List ℤ)) : List ℤ :=
  decodeGo emit terms pfx 0 numNew

/-- The final truncation of `generate` (`generation_utils.py` lines
305-307): cut the output buffer at the first occurrence of the sentinel
`-1`, if present. -/
def truncSentinel (s : List ℤ) : List ℤ :=
  if (-1 : ℤ) ∈ s then s.take (s.findIdx (fun t => decide (t = -1))) else s

/-- The token emitted by `prefill` (`generation_utils.py` lines 279-288):
the first element of the teacher-forcing tail when one exists, otherwise
the model's greedy token for step 0 (abstracted as `emit 0`). -/
def prefillTok (emit : ℕ → ℤ) : Option (List ℤ) → ℤ
  | some (t :: _) => t
  | _ => emit 0

/-- `generate` (`generation_utils.py` lines 241-309), sequence output only:
split the prompt if needed, allocate a `-1`-initialized buffer of length
`prompt_length + max_new_tokens` (`none` models the index error raised when
`max_new_tokens = 0` by `seq[prompt_length] = next_token`), write the
prompt, the prefill token and the decoded tokens, and truncate at the first
sentinel.  The opaque model is abstracted as the oracle `emit`: `emit 0` is
the prefill greedy token and `emit (i+1)` the greedy token of decode step
`i`. -/
def generate (emit : ℕ → ℤ) (prompt : List ℤ) (maxNewTokens : ℕ)
    (terms : List ℤ) (feedLong : Bool) (minCache : ℕ) : Option (List ℤ) :=
  if (splitPrompt feedLong minCache prompt maxNewTokens).2.2 = 0 then none
  else
    some (truncSentinel
      ((splitPrompt feedLong minCache prompt maxNewTokens).1 ++
        prefillTok emit (splitPrompt feedLong minCache prompt maxNewTokens).2.1 ::
          (decode_n_tokens (fun i => emit (i + 1))
              ((splitPrompt feedLong minCache prompt maxNewTokens).2.2 - 1) terms
              ((splitPrompt feedLong minCache prompt maxNewTokens).2.1.map
                (fun q => q.drop 1)) ++
            List.replicate
              ((splitPrompt feedLong minCache prompt maxNewTokens).2.2 - 1 -
                (decode_n_tokens (fun i => emit (i + 1))
                    ((splitPrompt feedLong minCache prompt maxNewTokens).2.2 - 1)
                    terms
                    ((splitPrompt feedLong minCache prompt maxNewTokens).2.1.map
                      (fun q => q.drop 1))).length)
              (-1))))

/-- Claim C6: the prompt is split exactly when (long-prompt feeding is
enabled and the prompt exceeds `maxPromptLen = minCache - 1`) or the prompt
length equals `minCache`; every split produces a truncated prompt of length
`min (minCache - 1) promptLen`, a tail of the remaining tokens, and
increases `maxNewTokens` by the tail length; in the equality edge case
`minCache = 16`, `promptLen = 16` the truncated prompt has length 15, the
tail length 1, and `maxNewTokens` grows by 1. -/
theorem splitPrompt_spec (feedLong : Bool) (minCache : ℕ) (prompt : List ℤ)
    (maxNew : ℕ) (hmc : 1 ≤ minCache) :
    ((splitPrompt feedLong minCache prompt maxNew).2.1.isSome = true ↔
      ((feedLong = true ∧ minCache - 1 < prompt.length) ∨
        prompt.length = minCache))
    ∧ (∀ pfx, (splitPrompt feedLong minCache prompt maxNew).2.1 = some pfx →
        (splitPrompt feedLong minCache prompt maxNew).1.length =
            min (minCache - 1) prompt.length
        ∧ pfx.length = prompt.length - (minCache - 1)
        ∧ (splitPrompt feedLong minCache prompt maxNew).2.2 =
            maxNew + pfx.length)
    ∧ (minCache = 16 → prompt.length = 16 →
        (splitPrompt feedLong minCache prompt maxNew).1.length = 15
        ∧ (splitPrompt feedLong minCache prompt maxNew).2.1 =
            some (prompt.drop 15)
        ∧ (prompt.drop 15).length = 1
        ∧ (splitPrompt feedLong minCache prompt maxNew).2.2 = maxNew + 1) := by
  unfold splitPrompt
  by_cases hc : (feedLong = true ∧ minCache - 1 < prompt.length) ∨
      prompt.length = minCache
  · rw [if_pos hc]
    refine ⟨by simpa using hc, ?_, ?_⟩
    · intro pfx hpfx
      rw [Option.some_inj] at hpfx
      subst hpfx
      simp [List.length_take, List.length_drop]
    · rintro rfl hlen
      simp [hlen, List.length_drop]
  · rw [if_neg hc]
    refine ⟨by simpa using hc, by simp, ?_⟩
    rintro rfl hlen
    exact absurd (Or.inr hlen) hc

theorem splitPrompt_spec_witness :
    (splitPrompt false 16 (List.replicate 16 (0 : ℤ)) 5).1.length = 15
    ∧ (splitPrompt false 16 (List.replicate 16 (0 : ℤ)) 5).2.1 =
        some ((List.replicate 16 (0 : ℤ)).drop 15)
    ∧ ((List.replicate 16 (0 : ℤ)).drop 15).length = 1
    ∧ (splitPrompt false 16 (List.replicate 16 (0 : ℤ)) 5).2.2 = 5 + 1 := by
  have h := splitPrompt_spec false 16 (List.replicate 16 (0 : ℤ)) 5
    (by norm_num)
  exact h.2.2 rfl (by simp)

lemma decodeGo_teacher_forced (emit : ℕ → ℤ) (terms : List ℤ) (p : List ℤ) :
    ∀ (fuel i : ℕ),
      (decodeGo emit terms (some p) i fuel).take (min fuel (p.length - i)) =
        (p.drop i).take (min fuel (p.length - i))
      ∧ min fuel (p.length - i) ≤
          (decodeGo emit terms (some p) i fuel).length := by
  intro fuel
  induction fuel with
  | zero => intro i; simp [decodeGo]
  | succ fuel ih =>
    intro i
    by_cases hi : i < p.length
    · have harith : min (fuel + 1) (p.length - i) =
          min fuel (p.length - (i + 1)) + 1 := by omega
      simp only [decodeGo, Option.elim_some, hi, decide_True, if_pos,
        if_true, Option.getD_some, harith, List.take_succ_cons,
        List.drop_eq_getElem_cons hi, List.getD_eq_getElem _ _ hi,
        List.length_cons]
      exact ⟨by rw [(ih (i + 1)).1], by have := (ih (i + 1)).2; omega⟩
    · have h0 : p.length - i = 0 := by omega
      simp [h0]

lemma decodeGo_none_first_term (emit : ℕ → ℤ) (terms : List ℤ) (t : ℕ)
    (hterms : terms ≠ []) (htm : emit t ∈ terms) :
    ∀ (fuel i : ℕ), i ≤ t → t < i + fuel →
      (∀ j, i ≤ j → j < t → emit j ∉ terms) →
      decodeGo emit terms none i fuel =
        (List.range' i (t - i)).map emit ++ [emit t] := by
  intro fuel
  induction fuel with
  | zero => omega
  | succ fuel ih =>
    intro i hit hlt hnot
    rcases Nat.eq_or_lt_of_le hit with rfl | hit'
    · simp [decodeGo, hterms, htm]
    · have hne : emit i ∉ terms := hnot i le_rfl hit'
      have hrange : t - i = (t - (i + 1)) + 1 := by omega
      simp only [decodeGo, Option.elim_none, Bool.false_eq_true, if_false,
        hterms, ne_eq, not_false_iff, true_and, hne, if_false, hrange,
        List.range'_succ, List.map_cons, List.cons_append]
      rw [ih (i + 1) (by omega) (by omega)
        (fun j hj1 hj2 => hnot j (by omega) hj2)]

lemma findIdx_sentinel (L r : List ℤ) (h : ∀ t ∈ L, t ≠ -1) :
    (L ++ (-1 : ℤ) :: r).findIdx (fun t => decide (t = -1)) = L.length := by
  induction L with
  | nil => simp [List.findIdx_cons]
  | cons a tl ih =>
    have ha : (a = (-1 : ℤ)) = False := by
      simp [h a (by simp)]
    simp [List.findIdx_cons, ha, ih (fun t ht => h t (by simp [ht]))]

lemma findIdx_sentinel_ge (L s : List ℤ) (h : ∀ t ∈ L, t ≠ -1) :
    L.length ≤ (L ++ s).findIdx (fun t => decide (t = -1)) := by
  induction L with
  | nil => simp
  | cons a tl ih =>
    have ha : (a = (-1 : ℤ)) = False := by
      simp [h a (by simp)]
    simp only [List.cons_append, List.findIdx_cons, ha, decide_False,
      List.length_cons, cond_false]
    have := ih (fun t ht => h t (by simp [ht]))
    omega

lemma truncSentinel_append (L r : List ℤ) (h : ∀ t ∈ L, t ≠ -1) :
    truncSentinel (L ++ (-1 : ℤ) :: r) = L := by
  rw [truncSentinel, if_pos (by simp), findIdx_sentinel L r h]
  exact List.take_left' rfl

lemma truncSentinel_take (L s : List ℤ) (h : ∀ t ∈ L, t ≠ -1) :
    (truncSentinel (L ++ s)).take L.length = L := by
  rw [truncSentinel]
  split
  · rw [List.take_take, min_eq_left (findIdx_sentinel_ge L s h)]
    exact List.take_left' rfl
  · exact List.take_left' rfl

/-- Claim C7: (i) with terminator set `{50256}` and a greedy emission of
`50256` at generated-token position 5 (a non-teacher-forced decode step,
there being no teacher-forcing tail), the returned sequence is exactly the
prompt plus 5 generated tokens ending in the terminator — the terminator is
appended, generation halts, and the sentinel tail is truncated away;
(ii) a teacher-forced step never triggers the early stop: while the
teacher-forcing tail lasts, `decode_n_tokens` reproduces the tail and never
breaks, whatever the tail's tokens (even terminators). -/
theorem generate_early_termination (emit : ℕ → ℤ) (prompt : List ℤ)
    (maxNew minCache : ℕ)
    (hsplit : prompt.length ≠ minCache)
    (hmax : 6 ≤ maxNew)
    (hp : ∀ t ∈ prompt, 0 ≤ t)
    (hge : ∀ i < 5, 0 ≤ emit i)
    (hne : ∀ i, 1 ≤ i → i < 4 → emit i ≠ 50256)
    (h5 : emit 4 = 50256) :
    generate emit prompt maxNew [50256] false minCache =
      some (prompt ++ [emit 0, emit 1, emit 2, emit 3, 50256])
    ∧ ∀ (emit2 : ℕ → ℤ) (terms2 p : List ℤ) (numNew : ℕ),
        (decode_n_tokens emit2 numNew terms2 (some p)).take
            (min numNew p.length) =
          p.take (min numNew p.length)
        ∧ min numNew p.length ≤
            (decode_n_tokens emit2 numNew terms2 (some p)).length := by
  constructor
  · have hsp : splitPrompt false minCache prompt maxNew =
        (prompt, none, maxNew) := by
      rw [splitPrompt, if_neg]
      rintro (⟨hfl, -⟩ | hl)
      · simp at hfl
      · exact hsplit hl
    have hgen : decode_n_tokens (fun i => emit (i + 1)) (maxNew - 1)
        [50256] none = [emit 1, emit 2, emit 3, 50256] := by
      obtain ⟨m, hm⟩ : ∃ m, maxNew - 1 = 3 + (m + 1) :=
        ⟨maxNew - 5, by omega⟩
      rw [decode_n_tokens, hm,
        decodeGo_none_first_term (fun i => emit (i + 1)) [50256] 3
          (by simp) (by simp [h5]) (3 + (m + 1)) 0 (by omega) (by omega)
          (fun j hj1 hj2 => by
            simp only [List.mem_singleton]
            exact hne (j + 1) (by omega) (by omega))]
      norm_num [List.range', h5]
    rw [generate, hsp]
    have hmn : ¬ ((prompt, (none : Option (List ℤ)), maxNew).2.2 = 0) := by
      show ¬ maxNew = 0
      omega
    rw [if_neg hmn]
    show some (truncSentinel (prompt ++ emit 0 ::
      (decode_n_tokens (fun i => emit (i + 1)) (maxNew - 1) [50256] none ++
        List.replicate (maxNew - 1 -
          (decode_n_tokens (fun i => emit (i + 1)) (maxNew - 1) [50256]
            none).length)
          (-1)))) = _
    rw [hgen]
    have hpad : maxNew - 1 - ([emit 1, emit 2, emit 3, 50256] : List ℤ).length
        = (maxNew - 6) + 1 := by
      simp only [List.length_cons, List.length_nil]
      omega
    rw [hpad, List.replicate_succ]
    have hassoc : prompt ++ emit 0 ::
        ([emit 1, emit 2, emit 3, 50256] ++
          (-1 : ℤ) :: List.replicate (maxNew - 6) (-1)) =
        (prompt ++ [emit 0, emit 1, emit 2, emit 3, 50256]) ++
          (-1 : ℤ) :: List.replicate (maxNew - 6) (-1) := by
      simp
    rw [hassoc, truncSentinel_append]
    intro t ht
    rcases List.mem_append.mp ht with h | h
    · have := hp t h; omega
    · simp only [List.mem_cons, List.mem_singleton, List.not_mem_nil,
        or_false] at h
      rcases h with rfl | rfl | rfl | rfl | rfl
      · have := hge 0 (by omega); omega
      · have := hge 1 (by omega); omega
      · have := hge 2 (by omega); omega
      · have := hge 3 (by omega); omega
      · omega
  · intro emit2 terms2 p numNew
    have h := decodeGo_teacher_forced emit2 terms2 p numNew 0
    rw [decode_n_tokens]
    simpa using h

theorem generate_early_termination_witness :
    generate (fun i => if i = 4 then 50256 else (100 + i : ℤ)) [5] 6 [50256]
        false 3 =
      some ([5] ++ [(if 0 = 4 then 50256 else (100 + 0 : ℤ)),
        (if 1 = 4 then 50256 else (100 + 1 : ℤ)),
        (if 2 = 4 then 50256 else (100 + 2 : ℤ)),
        (if 3 = 4 then 50256 else (100 + 3 : ℤ)), 50256])
    ∧ ∀ (emit2 : ℕ → ℤ) (terms2 p : List ℤ) (numNew : ℕ),
        (decode_n_tokens emit2 numNew terms2 (some p)).take
            (min numNew p.length) =
          p.take (min numNew p.length)
        ∧ min numNew p.length ≤
            (decode_n_tokens emit2 numNew terms2 (some p)).length :=
  generate_early_termination (fun i => if i = 4 then 50256 else (100 + i : ℤ))
    [5] 6 3 (by decide) (by decide) (by decide)
    (by intro i hi; interval_cases i <;> simp)
    (by intro i hi1 hi2; interval_cases i <;> simp)
    (by simp)

/-- Claim C10: for every successful generation run whose prompt contains no
sentinel `-1`, the returned sequence begins with the (possibly
split-truncated) prompt unchanged. -/
theorem generate_preserves_prompt (emit : ℕ → ℤ) (prompt : List ℤ)
    (maxNew : ℕ) (terms : List ℤ) (feedLong : Bool) (minCache : ℕ)
    (res : List ℤ)
    (hp : ∀ t ∈ prompt, t ≠ -1)
    (hres : generate emit prompt maxNew terms feedLong minCache = some res) :
    res.take (splitPrompt feedLong minCache prompt maxNew).1.length =
      (splitPrompt feedLong minCache prompt maxNew).1 := by
  have hp' : ∀ t ∈ (splitPrompt feedLong minCache prompt maxNew).1, t ≠ -1 := by
    intro t ht
    apply hp
    rw [splitPrompt] at ht
    split at ht
    · exact List.take_subset _ _ ht
    · exact ht
  rw [generate] at hres
  split at hres
  · exact absurd hres (by simp)
  · rw [Option.some_inj] at hres
    subst hres
    exact truncSentinel_take _ _ hp'

theorem generate_preserves_prompt_witness :
    ([1, 2, 3, 7, 7] : List ℤ).take
        (splitPrompt false 10 [1, 2, 3] 2).1.length =
      (splitPrompt false 10 [1, 2, 3] 2).1 :=
  generate_preserves_prompt (fun _ => 7) [1, 2, 3] 2 [] false 10
    [1, 2, 3, 7, 7] (by decide) (by decide)

/-- `torch.nn.AvgPool1d(kernel_size, stride=1, padding=kernel_size // 2,
ceil_mode=False, count_include_pad=False)` applied to a 1-D sequence (the
pooling configured in `PromptCompressorSnapKV.__init__`,
`prompt_compression.py` lines 71-77): each output is the average of the
inputs in the centred window clipped to the sequence, the divisor being the
number of in-range elements (padding excluded).  Output length equals input
length. -/
def pool1d (k : ℕ) (xs : List ℚ) : List ℚ :=
  (List.range xs.length).map (fun i =>
    ((List.range' (i - k / 2) (min (xs.length - 1) (i + k / 2) + 1 -
        (i - k / 2))).map (fun j => xs.getD j 0)).sum /
      (((List.range' (i - k / 2) (min (xs.length - 1) (i + k / 2) + 1 -
        (i - k / 2))).map (fun j => xs.getD j 0)).length : ℚ))

/-- `attn[:, :, -obs:, :]` on one head: the last `obs` query rows of the
attention matrix (all rows when there are fewer than `obs`). -/
def lastRows (obs : ℕ) (m : List (List ℚ)) : List (List ℚ) :=
  m.drop (m.length - obs)

/-- Mean of column `p` over the given rows (`.mean(dim=2)` on one head);
out-of-range entries default to 0 and an empty row list yields 0 (the
division by 0 in `ℚ`). -/
def colMean (rows : List (List ℚ)) (p : ℕ) : ℚ :=
  ((rows.map (fun r => r.getD p 0)).sum) / ((rows.length : ℕ) : ℚ)

/-- The raw (pre-pooling) SnapKV priority of one head
(`prompt_compression.py` line 89):
`attn[:, :, -observation_len:, :].mean(dim=2)` with
`observation_len = 16`, one score per key position.  The number of key
positions is the length of the attention rows. -/
def rawScores (attnH : List (List ℚ)) : List ℚ :=
  (List.range (attnH.headD []).length).map
    (fun p => colMean (lastRows 16 attnH) p)

/-- The smoothed-and-forced SnapKV priority of one head
(`prompt_compression.py` lines 94-100): the raw score pooled with
`kernel_size = 5`, then the trailing `observation_len = 16` positions
overwritten with `1.0`. -/
def snapKVScores (attnH : List (List ℚ)) : List ℚ :=
  (List.range (attnH.headD []).length).map (fun i =>
    if (attnH.headD []).length - 16 ≤ i then (1 : ℚ)
    else (pool1d 5 (rawScores attnH)).getD i 0)

/-- Rank of position `i` under descending order of score (ties broken
toward the smaller index): the number of positions that
`scores.topk(k).indices` would list before `i`.  `torch.topk` leaves the
order among exactly tied values unspecified; breaking ties toward the
smaller index is a deterministic refinement, and the theorems below rely
only on strict score comparisons. -/
def rankDesc (s : ℕ → ℚ) (n i : ℕ) : ℕ :=
  ((Finset.range n).filter (fun j => s i < s j ∨ (s j = s i ∧ j < i))).card

/-- `scores.topk(k, dim=-1).indices.sort(dim=-1).values` on one head
(`prompt_compression.py` lines 101-103): the positions of the `k` largest
scores, listed in ascending index order. -/
def topkDesc (s : ℕ → ℚ) (n k : ℕ) : List ℕ :=
  (List.range n).filter (fun i => decide (rankDesc s n i < k))

/-- `PromptCompressorSnapKV.__call__` (`prompt_compression.py` lines
86-111) on one head: keep indices via top-`max_cache_length` of the
smoothed-and-forced priority, and the retained attention history — the raw
priority cloned *before* pooling and before the observation window is
overwritten (line 93) — gathered at the keep indices (line 105).  The
key/value gathers (lines 107-109) act uniformly across the feature
dimension at the same indices. -/
def snapKVHead (cap : ℕ) (attnH : List (List ℚ)) : List ℕ × List ℚ :=
  (topkDesc (fun i => (snapKVScores attnH).getD i 0)
      (attnH.headD []).length cap,
   (topkDesc (fun i => (snapKVScores attnH).getD i 0)
      (attnH.headD []).length cap).map
        (fun i => (rawScores attnH).getD i 0))

/-- Squared Euclidean norm of a key vector.
`torch.linalg.vector_norm(k_val, ord=2, dim=-1)` is its square root; since
squaring is strictly monotone on nonnegative reals, all score comparisons
(and hence the top-k selection and every claim proved here) are unchanged
by comparing squared norms, which keeps the embedding inside `ℚ`. -/
def keyNormSq (v : List ℚ) : ℚ := (v.map (fun x => x * x)).sum

/-- Rank of position `i` under ascending order of score (ties broken
toward the smaller index), over scores in `WithBot ℚ` where `⊥` stands for
the `float("-inf")` used by `masked_fill`: the number of positions that
`scores.topk(k, largest=False).indices` would list before `i`. -/
def rankAscB (s : ℕ → WithBot ℚ) (n i : ℕ) : ℕ :=
  ((Finset.range n).filter (fun j => s j < s i ∨ (s j = s i ∧ j < i))).card

/-- `scores.topk(k, dim=-1, largest=False).indices.sort(dim=-1).values` on
one head (`prompt_compression.py` lines 135-139): the positions of the `k`
smallest scores, listed in ascending index order. -/
def topkAscB (s : ℕ → WithBot ℚ) (n k : ℕ) : List ℕ :=
  (List.range n).filter (fun i => decide (rankAscB s n i < k))

/-- The eviction score of `PromptCompressorL2.__call__`
(`prompt_compression.py` lines 125-133) at position `i` of one head: the
(squared) L2 norm of the cached key, masked to `-inf` (`⊥`) when
`input_pos[i] < global_tokens` or
`input_pos[i] >= input_pos.shape[0] - recent_window`. -/
def l2Score (globalTokens recentWindow : ℕ) (inputPos : List ℤ)
    (kValH : List (List ℚ)) (i : ℕ) : WithBot ℚ :=
  if inputPos.getD i 0 < (globalTokens : ℤ)
      ∨ ((inputPos.length : ℕ) : ℤ) - (recentWindow : ℤ) ≤ inputPos.getD i 0
  then ⊥
  else ((keyNormSq (kValH.getD i [])) : WithBot ℚ)

/-- `PromptCompressorL2.__call__` keep indices on one head
(`prompt_compression.py` lines 124-139): the `max_cache_length` positions
of lowest masked score, in ascending order.  The key/value gathers (lines
141-143) act at the same indices. -/
def l2Head (cap globalTokens recentWindow : ℕ) (inputPos : List ℤ)
    (kValH : List (List ℚ)) : List ℕ :=
  topkAscB (l2Score globalTokens recentWindow inputPos kValH)
    inputPos.length cap

lemma getD_map_range (f : ℕ → α) (d : α) {n i : ℕ} (h : i < n) :
    ((List.range n).map f).getD i d = f i := by
  rw [List.getD_eq_getElem _ _ (by simpa using h)]
  simp

lemma getD_lt_one (l : List ℚ) (h : ∀ x ∈ l, x < 1) (i : ℕ) :
    l.getD i 0 < 1 := by
  by_cases hi : i < l.length
  · rw [List.getD_eq_getElem _ _ hi]
    exact h _ (l.getElem_mem hi)
  · rw [List.getD_eq_default _ _ (by omega)]
    norm_num

lemma sum_lt_length (l : List ℚ) (hne : l ≠ []) (h : ∀ x ∈ l, x < 1) :
    l.sum < (l.length : ℚ) := by
  induction l with
  | nil => exact absurd rfl hne
  | cons a tl ih =>
    rcases eq_or_ne tl [] with rfl | hne'
    · simpa using h a (by simp)
    · have h1 := h a (by simp)
      have h2 := ih hne' (fun x hx => h x (by simp [hx]))
      simp only [List.sum_cons, List.length_cons]
      push_cast
      linarith

lemma mean_lt_one (l : List ℚ) (h : ∀ x ∈ l, x < 1) :
    l.sum / ((l.length : ℕ) : ℚ) < 1 := by
  rcases eq_or_ne l [] with rfl | hne
  · norm_num
  · have hlen : (0 : ℚ) < ((l.length : ℕ) : ℚ) := by
      exact_mod_cast List.length_pos.mpr hne
    rw [div_lt_one hlen]
    exact sum_lt_length l hne h

lemma colMean_lt_one (rows : List (List ℚ))
    (h : ∀ r ∈ rows, ∀ a ∈ r, a < 1) (p : ℕ) : colMean rows p < 1 := by
  have hm := mean_lt_one (rows.map (fun r => r.getD p 0)) (fun x hx => by
    obtain ⟨r, hr, rfl⟩ := List.mem_map.mp hx
    exact getD_lt_one r (h r hr) p)
  simpa [colMean] using hm

lemma rawScores_lt_one (attnH : List (List ℚ))
    (h : ∀ r ∈ lastRows 16 attnH, ∀ a ∈ r, a < 1) :
    ∀ x ∈ rawScores attnH, x < 1 := by
  intro x hx
  obtain ⟨p, -, rfl⟩ := List.mem_map.mp hx
  exact colMean_lt_one _ h p

lemma pool1d_lt_one (k : ℕ) (xs : List ℚ) (h : ∀ x ∈ xs, x < 1) :
    ∀ y ∈ pool1d k xs, y < 1 := by
  intro y hy
  obtain ⟨i, -, rfl⟩ := List.mem_map.mp hy
  exact mean_lt_one _ (fun z hz => by
    obtain ⟨j, -, rfl⟩ := List.mem_map.mp hz
    exact getD_lt_one xs h j)

lemma snapKVScores_forced (attnH : List (List ℚ)) {i : ℕ}
    (h1 : (attnH.headD []).length - 16 ≤ i)
    (h2 : i < (attnH.headD []).length) :
    (snapKVScores attnH).getD i 0 = 1 := by
  rw [snapKVScores, getD_map_range _ _ h2, if_pos h1]

lemma snapKVScores_unforced_lt_one (attnH : List (List ℚ))
    (hattn : ∀ r ∈ lastRows 16 attnH, ∀ a ∈ r, a < 1) {i : ℕ}
    (h1 : ¬ ((attnH.headD []).length - 16 ≤ i))
    (h2 : i < (attnH.headD []).length) :
    (snapKVScores attnH).getD i 0 < 1 := by
  rw [snapKVScores, getD_map_range _ _ h2, if_neg h1]
  exact getD_lt_one _ (pool1d_lt_one 5 _ (rawScores_lt_one attnH hattn)) i

lemma sum_of_ones (l : List ℚ) (h : ∀ x ∈ l, x = 1) :
    l.sum = ((l.length : ℕ) : ℚ) := by
  induction l with
  | nil => simp
  | cons a tl ih =>
    have ha := h a (by simp)
    simp only [List.sum_cons, List.length_cons, ha,
      ih (fun x hx => h x (by simp [hx]))]
    push_cast
    ring

lemma mean_of_ones (l : List ℚ) (hne : l ≠ []) (h : ∀ x ∈ l, x = 1) :
    l.sum / ((l.length : ℕ) : ℚ) = 1 := by
  rw [sum_of_ones l h, div_self]
  have hpos : l.length ≠ 0 :=
    Nat.pos_iff_ne_zero.mp (List.length_pos.mpr hne)
  exact_mod_cast hpos

lemma rankDesc_lt_n (s : ℕ → ℚ) {n i : ℕ} (hi : i < n) :
    rankDesc s n i < n := by
  show ((Finset.range n).filter (fun j =>
      s i < s j ∨ (s j = s i ∧ j < i))).card < n
  have hsub : ((Finset.range n).filter (fun j =>
      s i < s j ∨ (s j = s i ∧ j < i))) ⊆ (Finset.range n).erase i := by
    intro j hj
    simp only [Finset.mem_filter, Finset.mem_range] at hj
    refine Finset.mem_erase.mpr ⟨?_, Finset.mem_range.mpr hj.1⟩
    rintro rfl
    rcases hj.2 with hlt | ⟨-, hlt⟩
    · exact lt_irrefl _ hlt
    · exact lt_irrefl _ hlt
  have hle := Finset.card_le_card hsub
  rw [Finset.card_erase_of_mem (Finset.mem_range.mpr hi),
    Finset.card_range] at hle
  omega

/-- Claim C2 (counterexample): the claim fails as stated, on an input with
every attention weight equal to `1.0` (reachable in practice when a float
softmax row saturates).  Every smoothed score then ties the forced `1.0`,
and the top-k tie resolution toward lower indices — one allowed resolution
of `torch.topk`'s unspecified tie order — evicts observation-window
positions: with capacity 16 (= the observation length) and span 20,
position 16 lies in the observation window (`20 - 16 ≤ 16 < 20`) yet is not
among the returned keep indices. -/
theorem snapKV_window_eviction_on_ties :
    16 ≤ 16
    ∧ ([List.replicate 20 (1 : ℚ)].headD []).length - 16 ≤ 16
    ∧ 16 < ([List.replicate 20 (1 : ℚ)].headD []).length
    ∧ 16 ∉ (snapKVHead 16 [List.replicate 20 (1 : ℚ)]).1 := by
  have hn : ([List.replicate 20 (1 : ℚ)].headD []).length = 20 := by simp
  refine ⟨le_refl 16, by simp, by simp, ?_⟩
  have hraw : ∀ p, p < 20 →
      (rawScores [List.replicate 20 (1 : ℚ)]).getD p 0 = 1 := by
    intro p hp
    rw [rawScores, hn, getD_map_range _ _ hp, colMean,
      show lastRows 16 [List.replicate 20 (1 : ℚ)] =
        [List.replicate 20 (1 : ℚ)] from by simp [lastRows]]
    simp only [List.map_cons, List.map_nil]
    rw [show (List.replicate 20 (1 : ℚ)).getD p 0 = 1 from by
      rw [List.getD_eq_getElem _ _ (by simpa using hp)]
      exact List.getElem_replicate _ _]
    norm_num
  have hrawlen : (rawScores [List.replicate 20 (1 : ℚ)]).length = 20 := by
    rw [rawScores, hn]
    simp
  have hpool : ∀ j, j < 20 →
      (pool1d 5 (rawScores [List.replicate 20 (1 : ℚ)])).getD j 0 = 1 := by
    intro j hj
    rw [pool1d, hrawlen, getD_map_range _ _ hj]
    refine mean_of_ones _ ?_ ?_
    · apply List.ne_nil_of_length_pos
      rw [List.length_map, List.length_range']
      omega
    · intro x hx
      obtain ⟨m, hm, rfl⟩ := List.mem_map.mp hx
      obtain ⟨t, ht, rfl⟩ := List.mem_range'.mp hm
      exact hraw _ (by omega)
  have hscore : ∀ j, j < 20 →
      (snapKVScores [List.replicate 20 (1 : ℚ)]).getD j 0 = 1 := by
    intro j hj
    rw [snapKVScores, hn, getD_map_range _ _ hj]
    split
    · rfl
    · exact hpool j hj
  have hrank : rankDesc
      (fun j => (snapKVScores [List.replicate 20 (1 : ℚ)]).getD j 0)
      20 16 = 16 := by
    show ((Finset.range 20).filter (fun j =>
        (snapKVScores [List.replicate 20 (1 : ℚ)]).getD 16 0 <
          (snapKVScores [List.replicate 20 (1 : ℚ)]).getD j 0 ∨
        ((snapKVScores [List.replicate 20 (1 : ℚ)]).getD j 0 =
          (snapKVScores [List.replicate 20 (1 : ℚ)]).getD 16 0 ∧
          j < 16))).card = 16
    rw [show ((Finset.range 20).filter (fun j =>
        (snapKVScores [List.replicate 20 (1 : ℚ)]).getD 16 0 <
          (snapKVScores [List.replicate 20 (1 : ℚ)]).getD j 0 ∨
        ((snapKVScores [List.replicate 20 (1 : ℚ)]).getD j 0 =
          (snapKVScores [List.replicate 20 (1 : ℚ)]).getD 16 0 ∧
          j < 16))) = Finset.range 16 from ?_]
    · exact Finset.card_range 16
    ext j
    simp only [Finset.mem_filter, Finset.mem_range]
    constructor
    · rintro ⟨hj20, hlt | ⟨-, hj⟩⟩
      · rw [hscore 16 (by omega), hscore j hj20] at hlt
        exact absurd hlt (lt_irrefl 1)
      · exact hj
    · intro hj
      exact ⟨by omega, Or.inr
        ⟨by rw [hscore j (by omega), hscore 16 (by omega)], hj⟩⟩
  intro hmem
  have h2 : 16 ∈ topkDesc
      (fun j => (snapKVScores [List.replicate 20 (1 : ℚ)]).getD j 0)
      ([List.replicate 20 (1 : ℚ)].headD []).length 16 := hmem
  rw [hn, topkDesc, List.mem_filter] at h2
  have h3 := h2.2
  simp only [decide_eq_true_eq, hrank] at h3
  exact lt_irrefl 16 h3

/-- Claim C2 (amended): whenever the attention weights of the last 16
query rows — the only rows the priority score reads — all lie in `[0, 1)`
(as softmax rows over at least two key positions do) and
`16 = observationLen ≤ capacity ≤ span`, the SnapKV keep-index set of a
head contains every one of the last 16 positions: their score is forced to
`1.0`, which strictly exceeds every smoothed score built from sub-1
weights.  In the boundary case `capacity = span`, all positions are kept
with no condition on the weights.  (Without the weight bound the
containment can fail on tied scores; see the counterexample above.) -/
theorem snapKV_keeps_observation_window (cap : ℕ) (attnH : List (List ℚ)) :
    ((∀ row ∈ lastRows 16 attnH, ∀ a ∈ row, 0 ≤ a ∧ a < 1) →
      16 ≤ cap → cap ≤ (attnH.headD []).length →
      ∀ i, (attnH.headD []).length - 16 ≤ i →
        i < (attnH.headD []).length → i ∈ (snapKVHead cap attnH).1)
    ∧ (cap = (attnH.headD []).length →
      ∀ i, i < (attnH.headD []).length → i ∈ (snapKVHead cap attnH).1) := by
  constructor
  case right =>
    intro hcapn i h2
    show i ∈ topkDesc (fun j => (snapKVScores attnH).getD j 0)
      (attnH.headD []).length cap
    rw [topkDesc, List.mem_filter]
    refine ⟨List.mem_range.mpr h2, ?_⟩
    simp only [decide_eq_true_eq, hcapn]
    exact rankDesc_lt_n _ h2
  case left =>
  intro hattn hcap hcapn i h1 h2
  have hattn' : ∀ r ∈ lastRows 16 attnH, ∀ a ∈ r, a < 1 :=
    fun r hr a ha => (hattn r hr a ha).2
  have hsi : (snapKVScores attnH).getD i 0 = 1 := snapKVScores_forced attnH h1 h2
  have hrank : rankDesc (fun j => (snapKVScores attnH).getD j 0)
      (attnH.headD []).length i < cap := by
    show ((Finset.range (attnH.headD []).length).filter (fun j =>
        (snapKVScores attnH).getD i 0 < (snapKVScores attnH).getD j 0 ∨
          ((snapKVScores attnH).getD j 0 = (snapKVScores attnH).getD i 0 ∧
            j < i))).card < cap
    have hsub : ((Finset.range (attnH.headD []).length).filter (fun j =>
          (snapKVScores attnH).getD i 0 < (snapKVScores attnH).getD j 0 ∨
            ((snapKVScores attnH).getD j 0 = (snapKVScores attnH).getD i 0 ∧
              j < i))) ⊆
        ((Finset.range (attnH.headD []).length).filter (fun j =>
          (attnH.headD []).length - 16 ≤ j ∧ j < i)) := by
      intro j hj
      simp only [Finset.mem_filter, Finset.mem_range] at hj ⊢
      obtain ⟨hjn, hcase⟩ := hj
      refine ⟨hjn, ?_⟩
      rcases hcase with hlt | ⟨heq, hji⟩
      · exfalso
        rw [hsi] at hlt
        by_cases hf : (attnH.headD []).length - 16 ≤ j
        · rw [snapKVScores_forced attnH hf hjn] at hlt
          exact lt_irrefl _ hlt
        · exact absurd hlt (not_lt.mpr
            (le_of_lt (snapKVScores_unforced_lt_one attnH hattn' hf hjn)))
      · rw [hsi] at heq
        by_cases hf : (attnH.headD []).length - 16 ≤ j
        · exact ⟨hf, hji⟩
        · exact absurd heq
            (ne_of_lt (snapKVScores_unforced_lt_one attnH hattn' hf hjn))
    have hico : ((Finset.range (attnH.headD []).length).filter (fun j =>
        (attnH.headD []).length - 16 ≤ j ∧ j < i)).card =
        i - ((attnH.headD []).length - 16) := by
      rw [show ((Finset.range (attnH.headD []).length).filter (fun j =>
          (attnH.headD []).length - 16 ≤ j ∧ j < i)) =
          Finset.Ico ((attnH.headD []).length - 16) i from by
        ext j
        simp only [Finset.mem_filter, Finset.mem_range, Finset.mem_Ico]
        omega]
      exact Nat.card_Ico _ _
    have hle := Finset.card_le_card hsub
    rw [hico] at hle
    omega
  show i ∈ topkDesc (fun j => (snapKVScores attnH).getD j 0)
    (attnH.headD []).length cap
  rw [topkDesc, List.mem_filter]
  exact ⟨List.mem_range.mpr h2, by simpa using hrank⟩

theorem snapKV_keeps_observation_window_witness :
    ∀ i, (([List.replicate 20 (0 : ℚ)].headD []).length) - 16 ≤ i →
      i < (([List.replicate 20 (0 : ℚ)].headD []).length) →
      i ∈ (snapKVHead 16 [List.replicate 20 (0 : ℚ)]).1 :=
  (snapKV_keeps_observation_window 16 [List.replicate 20 (0 : ℚ)]).1
    (by decide) (by decide) (by decide)

/-- Claim C8: the retained attention history returned by the SnapKV policy
for a head is the raw, pre-smoothed priority score — the mean of the
attention weights over the last 16 (observation-length) query steps,
cloned before pooling and before the observation window is overwritten —
gathered at exactly the selected keep indices. -/
theorem snapKV_history_is_raw (cap : ℕ) (attnH : List (List ℚ)) :
    (snapKVHead cap attnH).2 =
      (snapKVHead cap attnH).1.map
        (fun i => colMean (lastRows 16 attnH) i) := by
  show (topkDesc (fun j => (snapKVScores attnH).getD j 0)
      (attnH.headD []).length cap).map (fun i => (rawScores attnH).getD i 0) =
    (topkDesc (fun j => (snapKVScores attnH).getD j 0)
      (attnH.headD []).length cap).map
        (fun i => colMean (lastRows 16 attnH) i)
  apply List.map_congr_left
  intro i hi
  have hin : i < (attnH.headD []).length := by
    rw [topkDesc, List.mem_filter] at hi
    exact List.mem_range.mp hi.1
  rw [rawScores, getD_map_range _ _ hin]

lemma l2Score_spec (g w n : ℕ) (kValH : List (List ℚ)) (i : ℕ)
    (h2 : i < n) :
    l2Score g w ((List.range n).map (fun j : ℕ => (j : ℤ))) kValH i =
      if (i : ℤ) < (g : ℤ) ∨ (n : ℤ) - (w : ℤ) ≤ (i : ℤ) then ⊥
      else ((keyNormSq (kValH.getD i [])) : WithBot ℚ) := by
  rw [l2Score, getD_map_range _ _ h2, List.length_map, List.length_range]

/-- Claim C3: with the position ids `0..n-1` (so that a position's id is
its index), and provided the number of protected positions does not exceed
the capacity, every protected position (`index < globalTokens` or
`index ≥ n - recentWindow`, whose score is masked to `-inf`) is in the L2
keep-index set; among unprotected positions, one with a strictly smaller
key norm is kept whenever a larger-norm one is; and the returned indices
are sorted ascending. -/
theorem l2_protected_and_lowest (cap g w n : ℕ) (inputPos : List ℤ)
    (kValH : List (List ℚ))
    (hip : inputPos = (List.range n).map (fun j : ℕ => (j : ℤ)))
    (hprot : ((Finset.range n).filter (fun i : ℕ =>
        (i : ℤ) < (g : ℤ) ∨ (n : ℤ) - (w : ℤ) ≤ (i : ℤ))).card ≤ cap) :
    (∀ i, i < n → ((i : ℤ) < (g : ℤ) ∨ (n : ℤ) - (w : ℤ) ≤ (i : ℤ)) →
        i ∈ l2Head cap g w inputPos kValH)
    ∧ (∀ i j, i < n → j < n →
        ¬ ((i : ℤ) < (g : ℤ) ∨ (n : ℤ) - (w : ℤ) ≤ (i : ℤ)) →
        ¬ ((j : ℤ) < (g : ℤ) ∨ (n : ℤ) - (w : ℤ) ≤ (j : ℤ)) →
        keyNormSq (kValH.getD i []) < keyNormSq (kValH.getD j []) →
        j ∈ l2Head cap g w inputPos kValH →
        i ∈ l2Head cap g w inputPos kValH)
    ∧ (l2Head cap g w inputPos kValH).Sorted (· < ·) := by
  subst hip
  have hlen : ((List.range n).map (fun j : ℕ => (j : ℤ))).length = n := by
    simp
  have hl2 : l2Head cap g w ((List.range n).map (fun j : ℕ => (j : ℤ)))
      kValH = topkAscB
        (l2Score g w ((List.range n).map (fun j : ℕ => (j : ℤ))) kValH)
        n cap := by
    rw [l2Head, hlen]
  have hsp : ∀ i, i < n → ((i : ℤ) < (g : ℤ) ∨ (n : ℤ) - (w : ℤ) ≤ (i : ℤ)) →
      l2Score g w ((List.range n).map (fun j : ℕ => (j : ℤ))) kValH i = ⊥ :=
    fun i h2 hp => by rw [l2Score_spec g w n kValH i h2, if_pos hp]
  have hsu : ∀ i, i < n →
      ¬ ((i : ℤ) < (g : ℤ) ∨ (n : ℤ) - (w : ℤ) ≤ (i : ℤ)) →
      l2Score g w ((List.range n).map (fun j : ℕ => (j : ℤ))) kValH i =
        ((keyNormSq (kValH.getD i [])) : WithBot ℚ) :=
    fun i h2 hp => by rw [l2Score_spec g w n kValH i h2, if_neg hp]
  refine ⟨?_, ?_, ?_⟩
  · intro i h2 hp
    rw [hl2, topkAscB, List.mem_filter]
    refine ⟨List.mem_range.mpr h2, ?_⟩
    simp only [decide_eq_true_eq]
    unfold rankAscB
    have hiprot : i ∈ (Finset.range n).filter (fun i : ℕ =>
        (i : ℤ) < (g : ℤ) ∨ (n : ℤ) - (w : ℤ) ≤ (i : ℤ)) :=
      Finset.mem_filter.mpr ⟨Finset.mem_range.mpr h2, hp⟩
    have hsub : ((Finset.range n).filter (fun j =>
          l2Score g w ((List.range n).map (fun j : ℕ => (j : ℤ))) kValH j <
            l2Score g w ((List.range n).map (fun j : ℕ => (j : ℤ))) kValH i ∨
          (l2Score g w ((List.range n).map (fun j : ℕ => (j : ℤ))) kValH j =
            l2Score g w ((List.range n).map (fun j : ℕ => (j : ℤ))) kValH i ∧
            j < i))) ⊆
        ((Finset.range n).filter (fun i : ℕ =>
          (i : ℤ) < (g : ℤ) ∨ (n : ℤ) - (w : ℤ) ≤ (i : ℤ))).erase i := by
      intro j hj
      simp only [Finset.mem_filter, Finset.mem_range] at hj
      obtain ⟨hjn, hcase⟩ := hj
      rcases hcase with hlt | ⟨heq, hji⟩
      · exfalso
        rw [hsp i h2 hp] at hlt
        exact not_lt_bot hlt
      · have hsj : l2Score g w ((List.range n).map (fun j : ℕ => (j : ℤ)))
            kValH j = ⊥ := by rw [heq, hsp i h2 hp]
        have hjp : (j : ℤ) < (g : ℤ) ∨ (n : ℤ) - (w : ℤ) ≤ (j : ℤ) := by
          by_contra hnp
          rw [hsu j hjn hnp] at hsj
          exact WithBot.coe_ne_bot hsj
        exact Finset.mem_erase.mpr ⟨by omega,
          Finset.mem_filter.mpr ⟨Finset.mem_range.mpr hjn, hjp⟩⟩
    have hle := Finset.card_le_card hsub
    rw [Finset.card_erase_of_mem hiprot] at hle
    have hpos : 0 < ((Finset.range n).filter (fun i : ℕ =>
        (i : ℤ) < (g : ℤ) ∨ (n : ℤ) - (w : ℤ) ≤ (i : ℤ))).card :=
      Finset.card_pos.mpr ⟨i, hiprot⟩
    omega
  · intro i j h2i h2j hnpi hnpj hnorm hjmem
    rw [hl2, topkAscB, List.mem_filter] at hjmem ⊢
    refine ⟨List.mem_range.mpr h2i, ?_⟩
    have hrj : rankAscB
        (l2Score g w ((List.range n).map (fun j : ℕ => (j : ℤ))) kValH)
        n j < cap := by simpa using hjmem.2
    simp only [decide_eq_true_eq]
    have hsilt : l2Score g w ((List.range n).map (fun j : ℕ => (j : ℤ)))
        kValH i <
        l2Score g w ((List.range n).map (fun j : ℕ => (j : ℤ))) kValH j := by
      rw [hsu i h2i hnpi, hsu j h2j hnpj]
      exact_mod_cast hnorm
    have hij : rankAscB
        (l2Score g w ((List.range n).map (fun j : ℕ => (j : ℤ))) kValH) n i <
        rankAscB
          (l2Score g w ((List.range n).map (fun j : ℕ => (j : ℤ))) kValH)
          n j := by
      unfold rankAscB
      apply Finset.card_lt_card
      rw [Finset.ssubset_def]
      constructor
      · intro x hx
        simp only [Finset.mem_filter, Finset.mem_range] at hx ⊢
        obtain ⟨hxn, hcase⟩ := hx
        refine ⟨hxn, Or.inl ?_⟩
        rcases hcase with hlt | ⟨heq, hxi⟩
        · exact lt_trans hlt hsilt
        · exact heq ▸ hsilt
      · intro hsub
        have hi : i ∈ (Finset.range n).filter (fun x =>
            l2Score g w ((List.range n).map (fun j : ℕ => (j : ℤ))) kValH x <
              l2Score g w ((List.range n).map (fun j : ℕ => (j : ℤ)))
                kValH j ∨
            (l2Score g w ((List.range n).map (fun j : ℕ => (j : ℤ)))
                kValH x =
              l2Score g w ((List.range n).map (fun j : ℕ => (j : ℤ)))
                kValH j ∧ x < j)) :=
          Finset.mem_filter.mpr ⟨Finset.mem_range.mpr h2i, Or.inl hsilt⟩
        have hii := hsub hi
        simp only [Finset.mem_filter, Finset.mem_range] at hii
        rcases hii.2 with hlt | ⟨-, hii⟩
        · exact lt_irrefl _ hlt
        · exact lt_irrefl _ hii
    omega
  · rw [hl2, topkAscB]
    exact (List.sorted_lt_range n).filter _

theorem l2_protected_and_lowest_witness :
    (([0, 1, 2, 3] : List ℤ) =
        (List.range 4).map (fun j : ℕ => (j : ℤ))
      ∧ ((Finset.range 4).filter (fun i : ℕ =>
          (i : ℤ) < ((1 : ℕ) : ℤ) ∨
            ((4 : ℕ) : ℤ) - ((1 : ℕ) : ℤ) ≤ (i : ℤ))).card ≤ 3)
    ∧ (∀ i : ℕ, i < 4 →
        ((i : ℤ) < ((1 : ℕ) : ℤ) ∨
          ((4 : ℕ) : ℤ) - ((1 : ℕ) : ℤ) ≤ (i : ℤ)) →
        i ∈ l2Head 3 1 1 [0, 1, 2, 3] [[2], [1], [3], [5]]) :=
  ⟨⟨by decide, by decide⟩,
    (l2_protected_and_lowest 3 1 1 4 [0, 1, 2, 3] [[2], [1], [3], [5]]
      (by decide) (by decide)).1⟩

end ContextCompression
